import Mathlib

/-!
Verification of the `sqlalchemy_oso.roles` RBAC layer.

We give a shallow embedding of the role data model and the operations of
`src/languages/python/sqlalchemy-oso/sqlalchemy_oso/roles.py`:

* a `Role` row is a role name, the id of the resource the row is scoped to,
  and the membership list of user ids (the `users` many-to-many relation);
  the role-storage database is a `List Role`;
* the Polar rules embedded in `enable_roles` (`inherits_role_helper`,
  `inherits_role`, `rbac_allow`, `user_in_role`) become Lean functions and
  predicates over this model;
* the query and mutation helpers (`get_user_roles_for_resource`,
  `add_user_role`, `delete_user_role`, `reassign_user_role`,
  `get_user_resources_and_roles`, `get_resource_users_with_role`) become
  pure functions from the database to results, with SQL `ORDER BY` clauses
  rendered as sorts and raised exceptions rendered as `Except` errors.

Actors and resources are identified by their integer primary keys, as the
source's queries compare only `id` columns.
-/

namespace Oso

/-- A role row, as generated by `resource_role_class`: a `name` column, a
foreign key to the scoping resource (`resource_id`), and the `users`
many-to-many membership relation, kept as a list (the ORM-level collection,
which `add_user_role` appends to and `delete_user_role` removes from). -/
structure Role where
  name : String
  resource_id : Nat
  users : List Nat
deriving DecidableEq

/-- Embeds the Polar helper rule of `enable_roles` (roles.py lines 119-124):

    inherits_role_helper(role, inherited_role, role_order) if
        ([first, *rest] = role_order and
        role = first and
        inherited_role in rest) or
        ([first, *rest] = role_order and
        inherits_role_helper(role, inherited_role, rest));

The decomposition `[first, *rest] = role_order` fails on the empty list, so
the empty order derives nothing. -/
def inherits_role_helper (role inherited : String) : List String → Bool
  | [] => false
  | first :: rest =>
      (role == first && rest.contains inherited) || inherits_role_helper role inherited rest

/-- Embeds the generated Polar rule `inherits_role` (roles.py lines 141-145):
`inherited` is derivable from `role` when `inherits_role_helper` relates
their names in the hierarchy `order`, and `inherited` is the freshly
constructed role `new Role(name: inherited_role_name, resource: role.resource)`,
scoped to the same resource with empty membership. -/
def inherits_role (order : List String) (role inherited : Role) : Prop :=
  inherits_role_helper role.name inherited.name order = true ∧
    inherited.resource_id = role.resource_id ∧ inherited.users = []

theorem inherits_role_helper_mem {n m : String} :
    ∀ {l : List String}, inherits_role_helper n m l = true → m ∈ l := by
  intro l
  induction l with
  | nil => simp [inherits_role_helper]
  | cons first rest ih =>
      intro h
      simp only [inherits_role_helper, Bool.or_eq_true, Bool.and_eq_true] at h
      rcases h with ⟨_, hc⟩ | h
      · exact List.mem_cons_of_mem _ (List.elem_iff.mp hc)
      · exact List.mem_cons_of_mem _ (ih h)

theorem inherits_role_helper_left_mem {n m : String} :
    ∀ {l : List String}, inherits_role_helper n m l = true → n ∈ l := by
  intro l
  induction l with
  | nil => simp [inherits_role_helper]
  | cons first rest ih =>
      intro h
      simp only [inherits_role_helper, Bool.or_eq_true, Bool.and_eq_true] at h
      rcases h with ⟨he, _⟩ | h
      · exact (beq_iff_eq.mp he) ▸ List.mem_cons_self _ _
      · exact List.mem_cons_of_mem _ (ih h)

theorem inherits_role_helper_iff (n m : String) :
    ∀ (l : List String),
      inherits_role_helper n m l = true ↔ m ∈ l.drop (List.indexOf n l + 1) := by
  intro l
  induction l with
  | nil => simp [inherits_role_helper]
  | cons first rest ih =>
      by_cases h : first = n
      · subst h
        simp only [inherits_role_helper, List.indexOf_cons, beq_self_eq_true, cond_true,
          Nat.zero_add, List.drop_one, List.tail_cons, Bool.or_eq_true, Bool.and_eq_true,
          true_and, List.elem_iff]
        constructor
        · rintro (hm | hr)
          · exact hm
          · exact inherits_role_helper_mem hr
        · exact fun hm => Or.inl hm
      · have hb : (first == n) = false := beq_eq_false_iff_ne.mpr h
        have hb' : (n == first) = false := beq_eq_false_iff_ne.mpr (Ne.symm h)
        simp only [inherits_role_helper, List.indexOf_cons, hb, cond_false, hb',
          Bool.false_and, Bool.false_or]
        rw [ih]
        have : List.indexOf n rest + 1 + 1 = List.indexOf n rest + 1 + 1 := rfl
        simp [List.drop_succ_cons]

/-- C1: a role named `N` on resource `R` inherits, per the hierarchy `order`,
exactly one synthesized role (same resource `R`, empty membership) for each
name in the suffix of `order` strictly after the first occurrence of `N`;
when `N` does not occur in `order` nothing is derivable (the suffix past
`List.indexOf`, which is then the length, is empty and the membership
conjunct is unsatisfiable). -/
theorem inherits_role_spec (order : List String) (r r' : Role) :
    inherits_role order r r' ↔
      r.name ∈ order ∧ r'.name ∈ order.drop (List.indexOf r.name order + 1) ∧
        r'.resource_id = r.resource_id ∧ r'.users = [] := by
  unfold inherits_role
  rw [inherits_role_helper_iff]
  constructor
  · rintro ⟨hm, hres, husers⟩
    refine ⟨?_, hm, hres, husers⟩
    exact inherits_role_helper_left_mem ((inherits_role_helper_iff r.name r'.name order).mpr hm)
  · rintro ⟨_, hm, hres, husers⟩
    exact ⟨hm, hres, husers⟩

/-- Embeds the generated Polar rule `user_in_role` (roles.py lines 136-139):
the membership roles of `user` with respect to `resource` are the role rows
whose `users` relation contains the user and whose scoping resource id
equals `resource.id` (`role.{resource}.id = resource.id`). -/
def user_in_role (db : List Role) (user resource : Nat) : List Role :=
  db.filter (fun ro => ro.users.contains user && ro.resource_id == resource)

/-- Embeds `get_user_roles_for_resource` (roles.py lines 292-302): the query
filters the role table only by membership (`role_model.users.any (user_model.id == user.id)`);
the `resource` argument is used to pick the role model of the resource's
type but never appears in a filter, so no `resource.id` comparison occurs. -/
def get_user_roles_for_resource (db : List Role) (user : Nat) (resource : Nat) : List Role :=
  db.filter (fun ro => ro.users.contains user)

/-- C2: evaluated on a database holding a single role row scoped to resource 1
and membership `[7]`, the helper `get_user_roles_for_resource` queried for
user 7 on resource 2 returns that row, a role scoped to a different resource
instance — contradicting both the invariant and the helper's own docstring
("Get a user's roles for a single resource record"). -/
theorem get_user_roles_for_resource_wrong_instance :
    ∃ ro ∈ get_user_roles_for_resource [⟨"ADMIN", 1, [7]⟩] 7 2, ro.resource_id ≠ 2 := by
  decide

/-- Embeds the Polar rule `rbac_allow` (roles.py lines 95-98):

    rbac_allow(user, action, resource) if
        resource_role_applies_to(resource, role_resource) and
        user_in_role(user, role, role_resource) and
        role_allow(role, action, resource);

The collaborators `resource_role_applies_to` (the delegation relation),
`user_in_role` (the membership relation) and `role_allow` (the permission
predicate defined by the application policy) are parameters. Note that the
final conjunct applies `role_allow` to the ORIGINAL `resource`, while the
membership lookup ran against the bearer `role_resource`. -/
def rbac_allow (applies_to : Nat → Nat → Prop)
    (u_in_role : Nat → Role → Nat → Prop)
    (role_allow : Role → String → Nat → Prop)
    (user : Nat) (action : String) (resource : Nat) : Prop :=
  ∃ role_resource role, applies_to resource role_resource ∧
    u_in_role user role role_resource ∧ role_allow role action resource

/-- C3: `rbac_allow` only ever consults the `role_allow` collaborator at the
originally requested resource: two permission predicates that agree on all
roles and actions at `resource` — however much they differ at the bearer
resources delegation may have visited — yield the same decision. -/
theorem rbac_allow_original_resource
    (applies_to : Nat → Nat → Prop) (u_in_role : Nat → Role → Nat → Prop)
    (ra ra' : Role → String → Nat → Prop) (user : Nat) (action : String) (resource : Nat)
    (h : ∀ role act, ra role act resource ↔ ra' role act resource) :
    rbac_allow applies_to u_in_role ra user action resource ↔
      rbac_allow applies_to u_in_role ra' user action resource := by
  unfold rbac_allow
  constructor
  · rintro ⟨rr, role, h1, h2, h3⟩
    exact ⟨rr, role, h1, h2, (h role action).mp h3⟩
  · rintro ⟨rr, role, h1, h2, h3⟩
    exact ⟨rr, role, h1, h2, (h role action).mpr h3⟩

/-- A permission predicate granting exactly at resource 1. -/
def ra_at_one : Role → String → Nat → Prop := fun _ _ r => r = 1

/-- A permission predicate granting at resources 0 and 1; it agrees with
`ra_at_one` at resource 1 but differs at resource 0. -/
def ra_le_one : Role → String → Nat → Prop := fun _ _ r => r ≤ 1

theorem rbac_allow_original_resource_witness :
    rbac_allow (fun _ _ => True) (fun _ _ _ => True) ra_at_one 7 "view" 1 ↔
      rbac_allow (fun _ _ => True) (fun _ _ _ => True) ra_le_one 7 "view" 1 :=
  rbac_allow_original_resource _ _ _ _ _ _ _
    (fun _ _ => by simp [ra_at_one, ra_le_one])

/-- The lookup filter of `add_user_role` (roles.py lines 349-355) and of the
name-filtered branch of `delete_user_role`: role rows scoped to `resource`
(the join plus `resource_model.id == resource.id`) bearing `role_name`. -/
def role_row_matches (resource : Nat) (role_name : String) (ro : Role) : Bool :=
  ro.resource_id == resource && ro.name == role_name

/-- Appends `user` to the membership of the first row satisfying `p`, leaving
all other rows untouched — the effect of `role.users.append(user)` on the row
returned by `.first()`. -/
def append_user_to_first (user : Nat) (p : Role → Bool) : List Role → List Role
  | [] => []
  | ro :: rest =>
      if p ro then { ro with users := ro.users ++ [user] } :: rest
      else ro :: append_user_to_first user p rest

/-- Embeds `add_user_role` (roles.py lines 343-366): fetch the first role row
named `role_name` scoped to `resource`; if one exists, append `user` to its
membership (with no check that the user is already a member — the source's
TODO); otherwise create a row with that name, that scoping resource and
membership `[user]` and add it to the table. The role name is never compared
with the schema's `choices` (the source's other TODO). -/
def add_user_role (db : List Role) (user resource : Nat) (role_name : String) : List Role :=
  match db.find? (role_row_matches resource role_name) with
  | some _ => append_user_to_first user (role_row_matches resource role_name) db
  | none => db ++ [{ name := role_name, resource_id := resource, users := [user] }]

theorem role_row_matches_iff (resource : Nat) (role_name : String) (ro : Role) :
    role_row_matches resource role_name ro = true ↔
      ro.resource_id = resource ∧ ro.name = role_name := by
  simp [role_row_matches]

theorem add_user_role_of_no_match {db : List Role} {user resource : Nat} {role_name : String}
    (h : ∀ ro ∈ db, ¬(ro.resource_id = resource ∧ ro.name = role_name)) :
    add_user_role db user resource role_name =
      db ++ [{ name := role_name, resource_id := resource, users := [user] }] := by
  have hf : db.find? (role_row_matches resource role_name) = none := by
    rw [List.find?_eq_none]
    intro ro hro
    simp only [role_row_matches_iff]
    exact h ro hro
  simp [add_user_role, hf]

theorem add_user_role_cons_of_no_match {ro : Role} {rest : List Role}
    {user resource : Nat} {role_name : String}
    (h : role_row_matches resource role_name ro = false) :
    add_user_role (ro :: rest) user resource role_name =
      ro :: add_user_role rest user resource role_name := by
  unfold add_user_role
  rw [List.find?_cons, h]
  cases hf : rest.find? (role_row_matches resource role_name) with
  | none => simp
  | some ro' => simp [append_user_to_first, h]

theorem add_user_role_decomp {db : List Role} {resource : Nat} {role_name : String}
    (h : ∃ ro ∈ db, ro.resource_id = resource ∧ ro.name = role_name)
    (user : Nat) :
    ∃ l₁ ro l₂, db = l₁ ++ ro :: l₂ ∧ ro.resource_id = resource ∧ ro.name = role_name ∧
      (∀ ro' ∈ l₁, ¬(ro'.resource_id = resource ∧ ro'.name = role_name)) ∧
      add_user_role db user resource role_name =
        l₁ ++ { ro with users := ro.users ++ [user] } :: l₂ := by
  induction db with
  | nil => simp at h
  | cons hd rest ih =>
      by_cases hm : role_row_matches resource role_name hd = true
      · have hmm := (role_row_matches_iff resource role_name hd).mp hm
        refine ⟨[], hd, rest, by simp, hmm.1, hmm.2, by simp, ?_⟩
        unfold add_user_role
        rw [List.find?_cons, hm]
        simp [append_user_to_first, hm]
      · have hrest : ∃ ro ∈ rest, ro.resource_id = resource ∧ ro.name = role_name := by
          rcases h with ⟨ro, hro, hpr⟩
          rcases List.mem_cons.mp hro with rfl | hro'
          · exact absurd ((role_row_matches_iff resource role_name ro).mpr hpr) hm
          · exact ⟨ro, hro', hpr⟩
        rcases ih hrest with ⟨l₁, ro, l₂, hdb, h1, h2, h3, h4⟩
        refine ⟨hd :: l₁, ro, l₂, by rw [hdb]; simp, h1, h2, ?_, ?_⟩
        · intro ro' hro'
          rcases List.mem_cons.mp hro' with rfl | hro''
          · exact fun hc => hm ((role_row_matches_iff resource role_name ro').mpr hc)
          · exact h3 ro' hro''
        · rw [add_user_role_cons_of_no_match (Bool.not_eq_true _ ▸ hm), h4]
          simp

theorem add_user_role_member (db : List Role) (user resource : Nat) (role_name : String) :
    ∃ ro ∈ add_user_role db user resource role_name,
      ro.resource_id = resource ∧ ro.name = role_name ∧ user ∈ ro.users := by
  by_cases h : ∃ ro ∈ db, ro.resource_id = resource ∧ ro.name = role_name
  · rcases add_user_role_decomp h user with ⟨l₁, ro, l₂, _, h1, h2, _, h4⟩
    refine ⟨{ ro with users := ro.users ++ [user] }, ?_, h1, h2, by simp⟩
    rw [h4]
    simp
  · push_neg at h
    rw [add_user_role_of_no_match (by intro ro hro hc; exact (h ro hro hc.1) hc.2)]
    exact ⟨{ name := role_name, resource_id := resource, users := [user] },
      by simp, rfl, rfl, by simp⟩

/-- C6: `add_user_role` appends a fresh row named `role_name`, scoped to
`resource`, with membership `[user]`, when no row for that resource and name
exists; otherwise it appends `user` to the membership of the first existing
such row, leaving every other row unchanged; in either case the user ends up
a member of a role with that name on that resource. -/
theorem add_user_role_spec (db : List Role) (user resource : Nat) (role_name : String) :
    ((∀ ro ∈ db, ¬(ro.resource_id = resource ∧ ro.name = role_name)) →
      add_user_role db user resource role_name =
        db ++ [{ name := role_name, resource_id := resource, users := [user] }]) ∧
    ((∃ ro ∈ db, ro.resource_id = resource ∧ ro.name = role_name) →
      ∃ l₁ ro l₂, db = l₁ ++ ro :: l₂ ∧ ro.resource_id = resource ∧ ro.name = role_name ∧
        (∀ ro' ∈ l₁, ¬(ro'.resource_id = resource ∧ ro'.name = role_name)) ∧
        add_user_role db user resource role_name =
          l₁ ++ { ro with users := ro.users ++ [user] } :: l₂) ∧
    (∃ ro ∈ add_user_role db user resource role_name,
      ro.resource_id = resource ∧ ro.name = role_name ∧ user ∈ ro.users) :=
  ⟨fun h => add_user_role_of_no_match h,
   fun h => add_user_role_decomp h user,
   add_user_role_member db user resource role_name⟩

theorem add_user_role_spec_witness :
    add_user_role [] 7 1 "WRITE" = [{ name := "WRITE", resource_id := 1, users := [7] }] :=
  (add_user_role_spec [] 7 1 "WRITE").1 (by decide)

/-- C9: two identical `add_user_role` calls duplicate the membership entry:
starting from a table with no row for the resource and name, the first call
creates the row with the user as its single member and the second call —
which performs no already-a-member check — appends the same user again, so
the resulting membership list contains the user twice. -/
theorem add_user_role_not_idempotent (db : List Role) (user resource : Nat) (role_name : String)
    (h : ∀ ro ∈ db, ¬(ro.resource_id = resource ∧ ro.name = role_name)) :
    ∃ ro ∈ add_user_role (add_user_role db user resource role_name) user resource role_name,
      ro.resource_id = resource ∧ ro.name = role_name ∧ ro.users.count user = 2 := by
  induction db with
  | nil =>
      have h1 : add_user_role [] user resource role_name =
          [{ name := role_name, resource_id := resource, users := [user] }] := by
        rw [add_user_role_of_no_match (by simp)]
        simp
      rw [h1]
      have hm : role_row_matches resource role_name
          { name := role_name, resource_id := resource, users := [user] } = true := by
        simp [role_row_matches]
      simp only [add_user_role, List.find?_cons, hm, append_user_to_first, if_pos]
      exact ⟨{ name := role_name, resource_id := resource, users := [user] ++ [user] },
        by simp, rfl, rfl, by simp [List.count_cons]⟩
  | cons hd rest ih =>
      have hhd : role_row_matches resource role_name hd = false := by
        cases ht : role_row_matches resource role_name hd with
        | false => rfl
        | true =>
            exact absurd ((role_row_matches_iff resource role_name hd).mp ht)
              (h hd (List.mem_cons_self _ _))
      have hrest : ∀ ro ∈ rest, ¬(ro.resource_id = resource ∧ ro.name = role_name) :=
        fun ro hro => h ro (List.mem_cons_of_mem _ hro)
      rw [add_user_role_cons_of_no_match hhd, add_user_role_cons_of_no_match hhd]
      rcases ih hrest with ⟨ro, hro, hpr⟩
      exact ⟨ro, List.mem_cons_of_mem _ hro, hpr⟩

theorem add_user_role_not_idempotent_witness :
    ∃ ro ∈ add_user_role (add_user_role [] 7 1 "READ") 7 1 "READ",
      ro.resource_id = 1 ∧ ro.name = "READ" ∧ ro.users.count 7 = 2 :=
  add_user_role_not_idempotent [] 7 1 "READ" (by decide)

/-- The selection filter of `delete_user_role` (roles.py lines 375-384): rows
scoped to `resource` (the join plus `resource_model.id == resource.id`), then
narrowed by the Python truthiness test `if role_name:` — only a provided,
non-empty role name filters by name; a missing role name, or the falsy empty
string, falls back to filtering by membership of `user`
(`role_model.users.any (user_model.id == user.id)`). -/
def delete_sel (user resource : Nat) (role_name : Option String) (ro : Role) : Bool :=
  ro.resource_id == resource &&
    match role_name with
    | some nm => if nm = "" then ro.users.contains user else ro.name == nm
    | none => ro.users.contains user

/-- Embeds `delete_user_role` (roles.py lines 370-392): select the role rows
per `delete_sel`; `role.users.remove(user)` removes the first occurrence of
the user from each selected row's membership, and the Python `ValueError`
raised when a selected row does not contain the user becomes the generic
`Exception` message of the source. -/
def delete_user_role (db : List Role) (user resource : Nat) (role_name : Option String) :
    Except String (List Role) :=
  match (db.filter (delete_sel user resource role_name)).find?
      (fun ro => !ro.users.contains user) with
  | some ro =>
      .error ("User " ++ toString user ++ " not in role " ++ ro.name ++
        " for " ++ toString resource)
  | none =>
      .ok (db.map (fun ro =>
        if delete_sel user resource role_name ro then
          { ro with users := ro.users.erase user }
        else ro))

/-- Embeds `reassign_user_role` (roles.py lines 396-398): remove the user from
every role held on the resource (`delete_user_role` with no role name), then
assign the requested role. -/
def reassign_user_role (db : List Role) (user resource : Nat) (role_name : String) :
    Except String (List Role) := do
  let db' ← delete_user_role db user resource none
  pure (add_user_role db' user resource role_name)

/-- C7 counterexample: user 7 does not hold role "GHOST" on resource 1 — no
row with that name even exists — yet `delete_user_role` targeting "GHOST"
completes without error, returning the table unchanged instead of surfacing a
`RoleNotFound`-style failure. -/
theorem delete_missing_role_no_error :
    (∀ ro ∈ [Role.mk "ADMIN" 1 [7]],
        ¬(ro.resource_id = 1 ∧ ro.name = "GHOST" ∧ 7 ∈ ro.users)) ∧
      delete_user_role [Role.mk "ADMIN" 1 [7]] 7 1 (some "GHOST") =
        .ok [Role.mk "ADMIN" 1 [7]] := by
  constructor
  · decide
  · rfl

/-- C7 amended: for a provided, non-empty target name, removal errors exactly
when a role row with that name exists on the resource without the actor in
its membership; when every such row (if any) contains the actor the removal
succeeds — so removing a role the actor holds succeeds, but naming a role for
which no row exists on the resource is a silent no-op that leaves the table
unchanged rather than a caller-visible failure. An empty role name is falsy
under the source's `if role_name:` test, so passing it behaves exactly like
passing no name at all — delete by membership — and reassignment (which
deletes by membership) therefore never raises for a role the actor does not
hold. -/
theorem delete_user_role_spec (db : List Role) (user resource : Nat) (nm : String)
    (hne : nm ≠ "") :
    ((∃ ro ∈ db, ro.resource_id = resource ∧ ro.name = nm ∧ user ∉ ro.users) →
      ∃ msg, delete_user_role db user resource (some nm) = .error msg) ∧
    ((∀ ro ∈ db, ro.resource_id = resource → ro.name = nm → user ∈ ro.users) →
      ∃ db', delete_user_role db user resource (some nm) = .ok db') ∧
    ((∀ ro ∈ db, ¬(ro.resource_id = resource ∧ ro.name = nm)) →
      delete_user_role db user resource (some nm) = .ok db) ∧
    delete_user_role db user resource (some "") = delete_user_role db user resource none := by
  refine ⟨?_, ?_, ?_, ?_⟩
  · rintro ⟨ro, hro, hres, hnm, husr⟩
    have hsel : delete_sel user resource (some nm) ro = true := by
      simp [delete_sel, hres, hnm, hne]
    have hmemf : ro ∈ db.filter (delete_sel user resource (some nm)) :=
      List.mem_filter.mpr ⟨hro, hsel⟩
    have hsome : ((db.filter (delete_sel user resource (some nm))).find?
        (fun ro => !ro.users.contains user)).isSome = true := by
      rw [List.find?_isSome]
      exact ⟨ro, hmemf, by simp [husr]⟩
    cases hf : (db.filter (delete_sel user resource (some nm))).find?
        (fun ro => !ro.users.contains user) with
    | none => rw [hf] at hsome; simp at hsome
    | some ro' =>
        exact ⟨"User " ++ toString user ++ " not in role " ++ ro'.name ++
          " for " ++ toString resource, by unfold delete_user_role; rw [hf]⟩
  · intro h
    have hf : (db.filter (delete_sel user resource (some nm))).find?
        (fun ro => !ro.users.contains user) = none := by
      rw [List.find?_eq_none]
      intro ro hro
      rcases List.mem_filter.mp hro with ⟨hmem, hsel⟩
      simp [delete_sel, hne] at hsel
      simp
      exact h ro hmem hsel.1 hsel.2
    exact ⟨db.map (fun ro =>
        if delete_sel user resource (some nm) ro then
          { ro with users := ro.users.erase user }
        else ro),
      by unfold delete_user_role; rw [hf]⟩
  · intro h
    have hsel : ∀ ro ∈ db, delete_sel user resource (some nm) ro = false := by
      intro ro hro
      cases ht : delete_sel user resource (some nm) ro with
      | false => rfl
      | true =>
          simp [delete_sel, hne] at ht
          exact absurd ⟨ht.1, ht.2⟩ (h ro hro)
    have hfil : db.filter (delete_sel user resource (some nm)) = [] :=
      List.filter_eq_nil_iff.mpr (by intro a ha; simp [hsel a ha])
    unfold delete_user_role
    rw [hfil]
    simp only [List.find?_nil]
    congr 1
    calc db.map (fun ro =>
          if delete_sel user resource (some nm) ro then
            { ro with users := ro.users.erase user }
          else ro)
        = db.map id := List.map_congr_left (by intro a ha; simp [hsel a ha])
      _ = db := List.map_id db
  · have h0 : delete_sel user resource (some "") = delete_sel user resource none := by
      funext ro
      simp [delete_sel]
    unfold delete_user_role
    rw [h0]

theorem delete_user_role_spec_witness :
    ∃ msg, delete_user_role [Role.mk "ADMIN" 1 [9]] 7 1 (some "ADMIN") = .error msg :=
  (delete_user_role_spec [Role.mk "ADMIN" 1 [9]] 7 1 "ADMIN" (by decide)).1 (by decide)

theorem delete_user_role_none_ok (db : List Role) (user resource : Nat) :
    delete_user_role db user resource none =
      .ok (db.map (fun ro =>
        if delete_sel user resource none ro then
          { ro with users := ro.users.erase user }
        else ro)) := by
  have hf : (db.filter (delete_sel user resource none)).find?
      (fun ro => !ro.users.contains user) = none := by
    rw [List.find?_eq_none]
    intro ro hro
    rcases List.mem_filter.mp hro with ⟨_, hsel⟩
    simp only [delete_sel, Bool.and_eq_true] at hsel
    simp
    exact List.elem_iff.mp hsel.2
  unfold delete_user_role
  rw [hf]

theorem delete_none_clears (db : List Role) (user resource : Nat)
    (h : ∀ ro ∈ db, ro.users.count user ≤ 1) :
    ∀ ro' ∈ db.map (fun ro =>
        if delete_sel user resource none ro then
          { ro with users := ro.users.erase user }
        else ro),
      ro'.resource_id = resource → user ∉ ro'.users := by
  intro ro' hro' hres
  rcases List.mem_map.mp hro' with ⟨ro, hro, heq⟩
  by_cases hs : delete_sel user resource none ro = true
  · rw [if_pos hs] at heq
    have hcount : (ro.users.erase user).count user = 0 := by
      rw [List.count_erase_self]
      have := h ro hro
      omega
    rw [← heq]
    exact List.count_eq_zero.mp hcount
  · rw [if_neg hs] at heq
    subst heq
    intro hmem
    refine hs ?_
    simp only [delete_sel, hres, beq_self_eq_true, Bool.true_and]
    exact List.elem_iff.mpr hmem

theorem user_in_role_filter_nil {db : List Role} {user resource : Nat}
    (h : ∀ ro ∈ db, ro.resource_id = resource → user ∉ ro.users) :
    db.filter (fun ro => ro.users.contains user && ro.resource_id == resource) = [] := by
  rw [List.filter_eq_nil_iff]
  intro a ha
  simp
  exact fun hm hr => absurd hm (h a ha hr)

theorem user_in_role_add {db : List Role} {user resource : Nat} (role_name : String)
    (h : ∀ ro ∈ db, ro.resource_id = resource → user ∉ ro.users) :
    ∃ ro, user_in_role (add_user_role db user resource role_name) user resource = [ro] ∧
      ro.name = role_name ∧ ro.resource_id = resource := by
  by_cases hex : ∃ ro ∈ db, ro.resource_id = resource ∧ ro.name = role_name
  · rcases add_user_role_decomp hex user with ⟨l₁, ro, l₂, hdb, h1, h2, _, h4⟩
    refine ⟨{ ro with users := ro.users ++ [user] }, ?_, h2, h1⟩
    have hsub₁ : ∀ ro' ∈ l₁, ro' ∈ db := fun ro' hro' => hdb ▸ List.mem_append_left _ hro'
    have hsub₂ : ∀ ro' ∈ l₂, ro' ∈ db := fun ro' hro' =>
      hdb ▸ List.mem_append_right _ (List.mem_cons_of_mem _ hro')
    rw [h4, user_in_role, List.filter_append]
    have hfl₁ : l₁.filter (fun ro => ro.users.contains user && ro.resource_id == resource) = [] :=
      user_in_role_filter_nil (fun ro' hro' => h ro' (hsub₁ ro' hro'))
    have hfl₂ : l₂.filter (fun ro => ro.users.contains user && ro.resource_id == resource) = [] :=
      user_in_role_filter_nil (fun ro' hro' => h ro' (hsub₂ ro' hro'))
    have hkept : ({ ro with users := ro.users ++ [user] } : Role).users.contains user &&
        ({ ro with users := ro.users ++ [user] } : Role).resource_id == resource := by
      simp [h1]
    rw [List.filter_cons, if_pos hkept, hfl₁, hfl₂]
    rfl
  · push_neg at hex
    rw [add_user_role_of_no_match (by intro ro hro hc; exact (hex ro hro hc.1) hc.2)]
    refine ⟨{ name := role_name, resource_id := resource, users := [user] }, ?_, rfl, rfl⟩
    rw [user_in_role, List.filter_append, user_in_role_filter_nil h]
    simp

/-- C5: from a database in which no membership list repeats an actor (the
join table's composite primary key enforces this in SQL), `reassign_user_role`
completes successfully, and afterwards the actor's membership roles on the
resource — per the `user_in_role` rule — are exactly one role bearing the
requested name: the delete pass strips the actor from every role held on the
resource and the add pass enrolls them in the requested one only. -/
theorem reassign_user_role_spec (db : List Role) (user resource : Nat) (role_name : String)
    (h : ∀ ro ∈ db, ro.users.count user ≤ 1) :
    ∃ db', reassign_user_role db user resource role_name = .ok db' ∧
      ∃ ro, user_in_role db' user resource = [ro] ∧ ro.name = role_name := by
  have hclean := delete_none_clears db user resource h
  rcases user_in_role_add role_name hclean with ⟨ro, hq, hn, _⟩
  refine ⟨add_user_role (db.map (fun ro =>
      if delete_sel user resource none ro then
        { ro with users := ro.users.erase user }
      else ro)) user resource role_name, ?_, ro, hq, hn⟩
  unfold reassign_user_role
  rw [delete_user_role_none_ok]
  rfl

theorem reassign_user_role_spec_witness :
    ∃ db', reassign_user_role [Role.mk "READ" 1 [7]] 7 1 "WRITE" = .ok db' ∧
      ∃ ro, user_in_role db' 7 1 = [ro] ∧ ro.name = "WRITE" :=
  reassign_user_role_spec [Role.mk "READ" 1 [7]] 7 1 "WRITE" (by decide)

/-- Embeds the `choices` attribute of the `ResourceRoleMixin` class built by
`resource_role_class` (roles.py lines 190-196): the list of valid role names
recorded for a resource type's role model at class-creation time. -/
structure ResourceRoleMixin where
  choices : List String
deriving DecidableEq

/-- C8 counterexample: with a schema whose `choices` are `["READ", "WRITE"]`,
assigning the name "BOGUS" — not among the valid names — succeeds anyway and
leaves user 7 a member of a "BOGUS" role on resource 1: `add_user_role` never
consults `choices` (the `TODO: check input for valid role name` at roles.py
line 344). -/
theorem add_user_role_skips_choices_check :
    "BOGUS" ∉ (ResourceRoleMixin.mk ["READ", "WRITE"]).choices ∧
      ∃ ro ∈ add_user_role [] 7 1 "BOGUS",
        ro.name = "BOGUS" ∧ ro.resource_id = 1 ∧ 7 ∈ ro.users := by
  decide

/-- C8 amended: role names are not validated against the schema at assignment
time: for every schema and every role name outside its `choices`,
`add_user_role` still succeeds and the actor ends up a member of a role with
that name on that resource. -/
theorem add_user_role_no_validation (schema : ResourceRoleMixin) (db : List Role)
    (user resource : Nat) (role_name : String)
    (h : role_name ∉ schema.choices) :
    ∃ ro ∈ add_user_role db user resource role_name,
      ro.resource_id = resource ∧ ro.name = role_name ∧ user ∈ ro.users :=
  add_user_role_member db user resource role_name

theorem add_user_role_no_validation_witness :
    ∃ ro ∈ add_user_role [] 9 2 "SUPER",
      ro.resource_id = 2 ∧ ro.name = "SUPER" ∧ 9 ∈ ro.users :=
  add_user_role_no_validation (ResourceRoleMixin.mk ["READ"]) [] 9 2 "SUPER" (by decide)

/-- Delegation resolution outcomes of the spec-modelled resolver:
`DelegationCycle` signals a resource revisited on the current path, while
`OutOfFuel` is the distinct artifact of the recursion bound, never conflated
with a detected cycle. -/
inductive DelegationError where
  | DelegationCycle : DelegationError
  | OutOfFuel : DelegationError
deriving DecidableEq

/-- Modelled from the spec: the parent resources one delegation edge away —
section 4.2's "each declared DelegationEdge whose child type matches",
instantiated at resource granularity, edges visited in declaration order. The
code under src/ holds only the reflexive Polar rule
`resource_role_applies_to(role_resource, role_resource)` (roles.py line 107);
the edge declarations and the traversal itself live in application policy and
the external Polar engine, and spec section 4.2 records that cycle protection
is "not present upstream". -/
def parents_of (edges : List (Nat × Nat)) (r : Nat) : List Nat :=
  (edges.filter (fun e => e.1 == r)).map Prod.snd

/-- Modelled from the spec: depth-first delegation resolution per section 4.2 —
a resource delegates to itself, then recursively to each parent over the
declared edges, failing with `DelegationCycle` when resolution revisits a
resource already on the current path. Fuel makes the recursion well-founded;
exhaustion reports `OutOfFuel`, never `DelegationCycle`. -/
def delegates_to_aux (edges : List (Nat × Nat)) :
    Nat → List Nat → Nat → Except DelegationError (List Nat)
  | 0, _, _ => .error .OutOfFuel
  | fuel + 1, path, r =>
      if r ∈ path then .error .DelegationCycle
      else
        (parents_of edges r).foldlM
          (fun acc p => do
            let s ← delegates_to_aux edges fuel (r :: path) p
            pure (acc ++ s))
          [r]

/-- Modelled from the spec: `delegatesTo(resource)` of section 4.2 — resolve
the role-bearing resources of `resource` over the declared delegation edges,
starting from the empty path with fuel exceeding the number of edges. -/
def delegates_to (edges : List (Nat × Nat)) (r : Nat) : Except DelegationError (List Nat) :=
  delegates_to_aux edges (edges.length + 1) [] r

/-- C4: in the configuration where resource `A` delegates to resource `B` and
`B` delegates back to `A`, resolution starting at `A` fails with
`DelegationCycle` — and terminates, the resolver being a total function. -/
theorem delegates_to_two_cycle (A B : Nat) :
    delegates_to [(A, B), (B, A)] A = .error .DelegationCycle := by
  by_cases h : B = A
  · subst h
    simp [delegates_to, delegates_to_aux, parents_of, List.foldlM, Bind.bind, Except.bind]
  · have hba : (B == A) = false := beq_eq_false_iff_ne.mpr h
    have hab : (A == B) = false := beq_eq_false_iff_ne.mpr (Ne.symm h)
    simp [delegates_to, delegates_to_aux, parents_of, List.foldlM, hba, hab, h,
      Bind.bind, Except.bind]

/-- The accumulated SQL ordering of `get_user_resources_and_roles` (roles.py
lines 270-271): the chained `order_by(resource_model.id)` and
`order_by(role_model.name)` calls order rows by resource id first and role
name second. -/
def resource_then_name_le (p q : Nat × Role) : Bool :=
  decide (p.1 < q.1) || (p.1 == q.1 && decide (p.2.name ≤ q.2.name))

/-- Embeds `get_user_resources_and_roles` (roles.py lines 262-274): join the
resource table with the role table on the scoping foreign key, keep the rows
whose membership contains the user, and return the (resource id, role) pairs
ordered by resource id and then role name. -/
def get_user_resources_and_roles (resources : List Nat) (db : List Role) (user : Nat) :
    List (Nat × Role) :=
  (resources.flatMap (fun rid =>
      (db.filter (fun ro => ro.resource_id == rid && ro.users.contains user)).map
        (fun ro => (rid, ro)))).mergeSort resource_then_name_le

/-- Embeds `get_resource_users_with_role` (roles.py lines 324-339): join the
users reached through the membership relation of the role rows named
`role_name` and scoped to `resource`, ordered by user id. -/
def get_resource_users_with_role (db : List Role) (resource : Nat) (role_name : String) :
    List Nat :=
  ((db.filter (fun ro => ro.name == role_name && ro.resource_id == resource)).flatMap
      (fun ro => ro.users)).mergeSort (fun a b => decide (a ≤ b))

/-- C10: the query helpers return deterministically ordered results — they are
pure functions of the tables, `get_user_resources_and_roles` comes out
pairwise-sorted by resource id and then role name, and
`get_resource_users_with_role` comes out sorted by user id. -/
theorem query_helpers_sorted (resources : List Nat) (db : List Role) (user resource : Nat)
    (role_name : String) :
    List.Pairwise
      (fun p q : Nat × Role => p.1 < q.1 ∨ (p.1 = q.1 ∧ p.2.name ≤ q.2.name))
      (get_user_resources_and_roles resources db user) ∧
    List.Pairwise (fun a b : Nat => a ≤ b)
      (get_resource_users_with_role db resource role_name) := by
  constructor
  · have htrans : ∀ a b c : Nat × Role, resource_then_name_le a b = true →
        resource_then_name_le b c = true → resource_then_name_le a c = true := by
      intro a b c hab hbc
      simp only [resource_then_name_le, Bool.or_eq_true, Bool.and_eq_true,
        decide_eq_true_eq, beq_iff_eq] at hab hbc ⊢
      rcases hab with h1 | ⟨h1, h2⟩ <;> rcases hbc with h3 | ⟨h3, h4⟩
      · exact Or.inl (lt_trans h1 h3)
      · exact Or.inl (h3 ▸ h1)
      · exact Or.inl (h1 ▸ h3)
      · exact Or.inr ⟨h1.trans h3, le_trans h2 h4⟩
    have htotal : ∀ a b : Nat × Role,
        (resource_then_name_le a b || resource_then_name_le b a) = true := by
      intro a b
      simp only [resource_then_name_le, Bool.or_eq_true, Bool.and_eq_true,
        decide_eq_true_eq, beq_iff_eq]
      rcases Nat.lt_trichotomy a.1 b.1 with h | h | h
      · exact Or.inl (Or.inl h)
      · rcases le_total a.2.name b.2.name with hn | hn
        · exact Or.inl (Or.inr ⟨h, hn⟩)
        · exact Or.inr (Or.inr ⟨h.symm, hn⟩)
      · exact Or.inr (Or.inl h)
    unfold get_user_resources_and_roles
    refine List.Pairwise.imp ?_ (List.sorted_mergeSort htrans htotal _)
    intro p q hpq
    simp only [resource_then_name_le, Bool.or_eq_true, Bool.and_eq_true,
      decide_eq_true_eq, beq_iff_eq] at hpq
    exact hpq
  · have htrans : ∀ a b c : Nat, decide (a ≤ b) = true →
        decide (b ≤ c) = true → decide (a ≤ c) = true := by
      intro a b c hab hbc
      simp only [decide_eq_true_eq] at hab hbc ⊢
      exact le_trans hab hbc
    have htotal : ∀ a b : Nat, (decide (a ≤ b) || decide (b ≤ a)) = true := by
      intro a b
      simp only [Bool.or_eq_true, decide_eq_true_eq]
      exact Nat.le_total a b
    unfold get_resource_users_with_role
    refine List.Pairwise.imp ?_ (List.sorted_mergeSort htrans htotal _)
    intro a b hab
    simpa using hab

end Oso
